import Mathlib

/-!
Shallow embedding of `LoggerApp.py` (pricewars-kafka-reverse-proxy).

Decoded JSON payloads are modelled by `PyVal` (Python values as produced by
`json.loads`: `None`, `bool`, `int`, `str`, `list`, `dict`).  Floats are not
modelled; none of the verified properties touch numeric payload values other
than `http_code` comparisons against the integer 200.
-/

/-- A Python value as produced by `json.loads`. -/
inductive PyVal where
  | pnull : PyVal
  | pbool (b : Bool) : PyVal
  | pint (n : Int) : PyVal
  | pstr (s : String) : PyVal
  | parr (elems : List PyVal) : PyVal
  | pobj (fields : List (String × PyVal)) : PyVal

mutual

/-- Decidable equality on `PyVal` (automatic deriving does not handle the
nested `List` occurrences). -/
def PyVal.decEq : (a b : PyVal) → Decidable (a = b)
  | .pnull, .pnull => .isTrue rfl
  | .pbool a, .pbool b => decidable_of_iff (a = b) (by simp)
  | .pint a, .pint b => decidable_of_iff (a = b) (by simp)
  | .pstr a, .pstr b => decidable_of_iff (a = b) (by simp)
  | .parr xs, .parr ys =>
      haveI : Decidable (xs = ys) := PyVal.decEqList xs ys
      decidable_of_iff (xs = ys) (by simp)
  | .pobj xs, .pobj ys =>
      haveI : Decidable (xs = ys) := PyVal.decEqFields xs ys
      decidable_of_iff (xs = ys) (by simp)
  | .pnull, .pbool _ => .isFalse (fun h => PyVal.noConfusion h)
  | .pnull, .pint _ => .isFalse (fun h => PyVal.noConfusion h)
  | .pnull, .pstr _ => .isFalse (fun h => PyVal.noConfusion h)
  | .pnull, .parr _ => .isFalse (fun h => PyVal.noConfusion h)
  | .pnull, .pobj _ => .isFalse (fun h => PyVal.noConfusion h)
  | .pbool _, .pnull => .isFalse (fun h => PyVal.noConfusion h)
  | .pbool _, .pint _ => .isFalse (fun h => PyVal.noConfusion h)
  | .pbool _, .pstr _ => .isFalse (fun h => PyVal.noConfusion h)
  | .pbool _, .parr _ => .isFalse (fun h => PyVal.noConfusion h)
  | .pbool _, .pobj _ => .isFalse (fun h => PyVal.noConfusion h)
  | .pint _, .pnull => .isFalse (fun h => PyVal.noConfusion h)
  | .pint _, .pbool _ => .isFalse (fun h => PyVal.noConfusion h)
  | .pint _, .pstr _ => .isFalse (fun h => PyVal.noConfusion h)
  | .pint _, .parr _ => .isFalse (fun h => PyVal.noConfusion h)
  | .pint _, .pobj _ => .isFalse (fun h => PyVal.noConfusion h)
  | .pstr _, .pnull => .isFalse (fun h => PyVal.noConfusion h)
  | .pstr _, .pbool _ => .isFalse (fun h => PyVal.noConfusion h)
  | .pstr _, .pint _ => .isFalse (fun h => PyVal.noConfusion h)
  | .pstr _, .parr _ => .isFalse (fun h => PyVal.noConfusion h)
  | .pstr _, .pobj _ => .isFalse (fun h => PyVal.noConfusion h)
  | .parr _, .pnull => .isFalse (fun h => PyVal.noConfusion h)
  | .parr _, .pbool _ => .isFalse (fun h => PyVal.noConfusion h)
  | .parr _, .pint _ => .isFalse (fun h => PyVal.noConfusion h)
  | .parr _, .pstr _ => .isFalse (fun h => PyVal.noConfusion h)
  | .parr _, .pobj _ => .isFalse (fun h => PyVal.noConfusion h)
  | .pobj _, .pnull => .isFalse (fun h => PyVal.noConfusion h)
  | .pobj _, .pbool _ => .isFalse (fun h => PyVal.noConfusion h)
  | .pobj _, .pint _ => .isFalse (fun h => PyVal.noConfusion h)
  | .pobj _, .pstr _ => .isFalse (fun h => PyVal.noConfusion h)
  | .pobj _, .parr _ => .isFalse (fun h => PyVal.noConfusion h)

/-- Decidable equality on lists of `PyVal`. -/
def PyVal.decEqList : (a b : List PyVal) → Decidable (a = b)
  | [], [] => .isTrue rfl
  | [], _ :: _ => .isFalse (fun h => List.noConfusion h)
  | _ :: _, [] => .isFalse (fun h => List.noConfusion h)
  | x :: xs, y :: ys =>
      haveI : Decidable (x = y) := PyVal.decEq x y
      haveI : Decidable (xs = ys) := PyVal.decEqList xs ys
      decidable_of_iff (x = y ∧ xs = ys) (by simp)

/-- Decidable equality on association lists of `PyVal`. -/
def PyVal.decEqFields : (a b : List (String × PyVal)) → Decidable (a = b)
  | [], [] => .isTrue rfl
  | [], _ :: _ => .isFalse (fun h => List.noConfusion h)
  | _ :: _, [] => .isFalse (fun h => List.noConfusion h)
  | (k, v) :: xs, (k', v') :: ys =>
      haveI : Decidable (v = v') := PyVal.decEq v v'
      haveI : Decidable (xs = ys) := PyVal.decEqFields xs ys
      decidable_of_iff (k = k' ∧ v = v' ∧ xs = ys)
        (by simp [Prod.ext_iff, and_assoc])

end

instance : DecidableEq PyVal := PyVal.decEq

/-- Python dict item assignment `d[k] = v`: replaces the value in place if the
key is present (keeping its position), else appends the pair at the end. -/
def setKey : List (String × PyVal) → String → PyVal → List (String × PyVal)
  | [], k, v => [(k, v)]
  | (k', v') :: rest, k, v =>
      if k' = k then (k, v) :: rest else (k', v') :: setKey rest k v

/-- Python `d[k]` on a decoded value; `none` models the exception raised when
the value is not a dict (`TypeError`) or the key is missing (`KeyError`). -/
def PyVal.dictGet : PyVal → String → Option PyVal
  | .pobj fs, k => fs.lookup k
  | _, _ => none

/-- Python `k in d` for a dict value (only used where the value is known to be
a dict). -/
def PyVal.dictHas (j : PyVal) (k : String) : Bool :=
  (j.dictGet k).isSome

/-- Python `d[k] = v` on a decoded value; `none` models the `TypeError` raised
when the value is not a dict. -/
def PyVal.dictSet : PyVal → String → PyVal → Option PyVal
  | .pobj fs, k, v => some (.pobj (setKey fs k v))
  | _, _, _ => none

/-- Python substring test `pat in s` for strings (`pat` is always a non-empty
literal at the use sites). -/
def containsSub (s pat : String) : Bool :=
  (s.splitOn pat).length > 1

/-- The Python value of the `merchant_id` variable in `export_csv_for_topic`:
`None` when no credential was derived, the hash string otherwise. -/
def pyOfOptStr : Option String → PyVal
  | none => .pnull
  | some s => .pstr s

/-!
The hasher `calculate_id` (LoggerApp.py line 197-198):
`base64.b64encode(hashlib.sha256(token.encode('utf-8')).digest()).decode('utf-8')`.
`hashlib.sha256` and `base64.b64encode` are external library calls; they are
modelled here by a full implementation of SHA-256 (FIPS 180-4) and of standard
base64, operating on byte lists (`Nat` entries, kept below 256).
-/

/-- UTF-8 encoding of one character (Python `str.encode('utf-8')`). -/
def utf8EncodeChar (c : Char) : List Nat :=
  let n := c.toNat
  if n < 128 then [n]
  else if n < 2048 then [192 + n / 64, 128 + n % 64]
  else if n < 65536 then [224 + n / 4096, 128 + n / 64 % 64, 128 + n % 64]
  else [240 + n / 262144, 128 + n / 4096 % 64, 128 + n / 64 % 64, 128 + n % 64]

/-- UTF-8 encoding of a string as a list of bytes. -/
def utf8Encode (s : String) : List Nat :=
  (s.data.map utf8EncodeChar).flatten

/-- Right rotation by `n` bits on `Nat` representatives of 32-bit words. -/
def rotr32 (n x : Nat) : Nat :=
  ((x >>> n) ||| (x <<< (32 - n))) % 4294967296

/-- Big-endian byte serialisation of `x` into `n` bytes. -/
def toBytesBE (n x : Nat) : List Nat :=
  (List.range n).map (fun i => x >>> (8 * (n - 1 - i)) % 256)

/-- Big-endian 32-bit word from (up to) four bytes. -/
def fromBytesBE (bs : List Nat) : Nat :=
  bs.foldl (fun acc b => acc * 256 + b) 0

/-- SHA-256 round constants (FIPS 180-4, in decimal). -/
def sha256K : List Nat :=
  [1116352408, 1899447441, 3049323471, 3921009573, 961987163,
   1508970993, 2453635748, 2870763221, 3624381080, 310598401,
   607225278, 1426881987, 1925078388, 2162078206, 2614888103,
   3248222580, 3835390401, 4022224774, 264347078, 604807628,
   770255983, 1249150122, 1555081692, 1996064986, 2554220882,
   2821834349, 2952996808, 3210313671, 3336571891, 3584528711,
   113926993, 338241895, 666307205, 773529912, 1294757372,
   1396182291, 1695183700, 1986661051, 2177026350, 2456956037,
   2730485921, 2820302411, 3259730800, 3345764771, 3516065817,
   3600352804, 4094571909, 275423344, 430227734, 506948616,
   659060556, 883997877, 958139571, 1322822218, 1537002063,
   1747873779, 1955562222, 2024104815, 2227730452, 2361852424,
   2428436474, 2756734187, 3204031479, 3329325298]

/-- SHA-256 initial hash state (in decimal). -/
def sha256init : List Nat :=
  [1779033703, 3144134277, 1013904242, 2773480762, 1359893119,
   2600822924, 528734635, 1541459225]

/-- SHA-256 message padding: append `0x80`, zero bytes up to 56 mod 64, then
the 64-bit big-endian bit length. -/
def sha256pad (msg : List Nat) : List Nat :=
  let L := msg.length
  let z := (119 - L % 64) % 64
  msg ++ [128] ++ List.replicate z 0 ++ toBytesBE 8 (L * 8)

/-- Split a padded message into 64-byte chunks. -/
def chunks64 (l : List Nat) : List (List Nat) :=
  (List.range (l.length / 64)).map (fun i => (l.drop (64 * i)).take 64)

/-- The 64-word message schedule of one chunk. -/
def sha256schedule (chunk : List Nat) : List Nat :=
  let w0 := (List.range 16).map (fun i => fromBytesBE ((chunk.drop (4 * i)).take 4))
  (List.range 48).foldl
    (fun w i =>
      let x15 := w.getD (i + 1) 0
      let x2 := w.getD (i + 14) 0
      let s0 := (rotr32 7 x15) ^^^ (rotr32 18 x15) ^^^ (x15 >>> 3)
      let s1 := (rotr32 17 x2) ^^^ (rotr32 19 x2) ^^^ (x2 >>> 10)
      w ++ [(w.getD i 0 + s0 + w.getD (i + 9) 0 + s1) % 4294967296])
    w0

/-- One SHA-256 compression round; the working state is a list of eight
32-bit words `[a, b, c, d, e, f, g, h]`. -/
def sha256round (kw : Nat) (st : List Nat) : List Nat :=
  let a := st.getD 0 0
  let b := st.getD 1 0
  let c := st.getD 2 0
  let d := st.getD 3 0
  let e := st.getD 4 0
  let f := st.getD 5 0
  let g := st.getD 6 0
  let hh := st.getD 7 0
  let s1 := (rotr32 6 e) ^^^ (rotr32 11 e) ^^^ (rotr32 25 e)
  let ch := (e &&& f) ^^^ ((4294967295 - e) &&& g)
  let t1 := (hh + s1 + ch + kw) % 4294967296
  let s0 := (rotr32 2 a) ^^^ (rotr32 13 a) ^^^ (rotr32 22 a)
  let mj := (a &&& b) ^^^ (a &&& c) ^^^ (b &&& c)
  let t2 := (s0 + mj) % 4294967296
  [(t1 + t2) % 4294967296, a, b, c, (d + t1) % 4294967296, e, f, g]

/-- SHA-256 compression of one 64-byte chunk into the hash state. -/
def sha256compress (st : List Nat) (chunk : List Nat) : List Nat :=
  let w := sha256schedule chunk
  let r := (List.range 64).foldl
    (fun s i => sha256round ((sha256K.getD i 0 + w.getD i 0) % 4294967296) s) st
  List.zipWith (fun a b => (a + b) % 4294967296) st r

/-- SHA-256 digest (32 bytes) of a byte list. -/
def sha256 (msg : List Nat) : List Nat :=
  let final := (chunks64 (sha256pad msg)).foldl sha256compress sha256init
  (final.map (toBytesBE 4)).flatten

/-- The 64 characters of the standard base64 alphabet. -/
def b64Alphabet : List Char :=
  "ABCDEFGHIJKLMNOPQRSTUVWXYZabcdefghijklmnopqrstuvwxyz0123456789+/".data

/-- Character of the base64 alphabet at a 6-bit index. -/
def b64Char (n : Nat) : Char :=
  b64Alphabet.getD (n % 64) 'A'

/-- Standard base64 encoding (`base64.b64encode`) of a byte list. -/
def base64encode : List Nat → List Char
  | [] => []
  | [b1] => [b64Char (b1 / 4), b64Char (b1 % 4 * 16), '=', '=']
  | [b1, b2] => [b64Char (b1 / 4), b64Char (b1 % 4 * 16 + b2 / 16),
                 b64Char (b2 % 16 * 4), '=']
  | b1 :: b2 :: b3 :: rest =>
      b64Char (b1 / 4) :: b64Char (b1 % 4 * 16 + b2 / 16) ::
      b64Char (b2 % 16 * 4 + b3 / 64) :: b64Char (b3 % 64) ::
      base64encode rest

/-- LoggerApp.py line 197-198: hash a merchant token to a merchant id. -/
def calculate_id (token : String) : String :=
  String.mk (base64encode (sha256 (utf8Encode token)))

/-!
Authorization handling (LoggerApp.py lines 102-104):
```
auth_header = request.headers.get('Authorization')
merchant_token = auth_header.split(' ')[-1] if auth_header else None
merchant_id = calculate_id(merchant_token) if merchant_token else None
```
Python `str.split(' ')` splits on every single space and keeps empty pieces;
`[-1]` takes the last piece.  An empty string is falsy, so an absent or empty
header yields no token, and an empty token yields no merchant id (the hasher
is not invoked).
-/

/-- Python `split(sep)` for a single separator character, on character lists:
splits at every occurrence and keeps empty pieces.  The result is never
empty. -/
def splitChar (sep : Char) : List Char → List (List Char)
  | [] => [[]]
  | c :: cs =>
      match splitChar sep cs with
      | [] => [[c]]
      | p :: ps => if c = sep then [] :: p :: ps else (c :: p) :: ps

/-- LoggerApp.py line 103: extract the bearer token from the header,
`auth_header.split(' ')[-1] if auth_header else None`. -/
def extractToken : Option String → Option String
  | none => none
  | some h => if h = "" then none
              else some (String.mk ((splitChar ' ' h.data).getLastD []))

/-- LoggerApp.py line 104: derive the merchant id,
`calculate_id(merchant_token) if merchant_token else None`. -/
def deriveMerchantId : Option String → Option String
  | none => none
  | some t => if t = "" then none else some (calculate_id t)

/-- LoggerApp.py lines 18-20: the fixed topic list. -/
def topics : List String :=
  ["addOffer", "buyOffer", "profit", "updateOffer", "updates", "salesPerMinutes",
   "cumulativeAmountBasedMarketshare", "cumulativeRevenueBasedMarketshare",
   "marketSituation", "revenuePerMinute", "revenuePerHour", "profitPerMinute",
   "inventory_level"]

/-!
Live ingestion (`KafkaHandler`, LoggerApp.py lines 23-65).

A raw Kafka record carries a topic, a broker timestamp, and a payload; the
`value` field below is the result of `json.loads(msg.value.decode('utf-8'))`
(`none` when decoding raises, which the loop catches and skips).
-/

/-- A raw record as delivered by the consumer, with its decode result. -/
structure RawMsg where
  topic : String
  timestamp : Int
  value : Option PyVal
  deriving DecidableEq

/-- The `output` dict built at LoggerApp.py lines 53-57:
`{"topic": msg.topic, "timestamp": msg.timestamp, "value": msg_json}`. -/
structure OutputMsg where
  topic : String
  timestamp : Int
  value : PyVal
  deriving DecidableEq

/-- Whether a decoded payload survives the body of `KafkaHandler.run`
(lines 50-51 and the surrounding `except`): the message is kept unless
`'http_code' in msg_json and msg_json['http_code'] != 200` holds, or that
test itself raises (`in` on a non-container raises `TypeError`, indexing a
list or string with a string key raises `TypeError`; any exception is caught
at line 62 and the message is dropped). -/
def keeps : PyVal → Bool
  | .pobj fs =>
      match fs.lookup "http_code" with
      | none => true
      | some v => v == .pint 200
  | .parr xs => !(xs.contains (.pstr "http_code"))
  | .pstr s => !(containsSub s "http_code")
  | _ => false

/-- Python `collections.deque(maxlen=cap).append`: append at the tail, evicting the
head first when the capacity would be exceeded. -/
def dequeAppend (cap : Nat) (buf : List α) (x : α) : List α :=
  let b := buf ++ [x]
  if cap < b.length then b.drop (b.length - cap) else b

/-- State of the `KafkaHandler`: the per-topic history buffers (`self.dumps`)
and the sequence of messages broadcast so far via `socketio.emit`. -/
structure IngestState where
  dumps : String → List OutputMsg
  emitted : List OutputMsg

/-- State before any message is processed: every buffer empty, nothing
emitted. -/
def initIngestState : IngestState :=
  { dumps := fun _ => [], emitted := [] }

/-- One iteration of the loop in `KafkaHandler.run` (lines 47-63): decode
failure is skipped; a payload rejected by the `http_code` filter is skipped;
otherwise the output dict is appended to `self.dumps[msg.topic]`
(`KeyError` for a topic outside the fixed list is caught and drops the
message) and broadcast. -/
def ingestStep (st : IngestState) (m : RawMsg) : IngestState :=
  match m.value with
  | none => st
  | some j =>
      if keeps j then
        if m.topic ∈ topics then
          let out : OutputMsg := ⟨m.topic, m.timestamp, j⟩
          { dumps := fun t =>
              if t = m.topic then dequeAppend 100 (st.dumps m.topic) out
              else st.dumps t,
            emitted := st.emitted ++ [out] }
        else st
      else st

/-- The ingestion loop run over a finite record sequence. -/
def runIngest (msgs : List RawMsg) : IngestState :=
  msgs.foldl ingestStep initIngestState

/-- The output produced for a record that passes decoding, the `http_code`
filter and the topic lookup; `none` if the record is dropped. -/
def acceptedOutput (m : RawMsg) : Option OutputMsg :=
  match m.value with
  | none => none
  | some j =>
      if keeps j ∧ m.topic ∈ topics then some ⟨m.topic, m.timestamp, j⟩
      else none

/-- All accepted outputs of a record sequence for one topic, in arrival
order. -/
def acceptedOutputs (t : String) (msgs : List RawMsg) : List OutputMsg :=
  (msgs.filterMap acceptedOutput).filter (fun o => o.topic = t)

/-- LoggerApp.py lines 30-40 (startup): after `seek_to_end` the recorded
`end_offset[topic]` is the log length (single partition starting at offset
zero); the re-seek target is `max(0, end_offset[topic] - 100)`. -/
def startupStartPos (endOffset : Nat) : Int :=
  max 0 ((endOffset : Int) - 100)

/-- The suffix of a topic's log that the consumer replays after the startup
re-seek, before (and seamlessly continuing into) live consumption. -/
def startupConsumed (log : List RawMsg) : List RawMsg :=
  log.drop (startupStartPos log.length).toNat

/-- The handler `KafkaHandler.on_connect` (lines 67-71): `self.dumps` always holds one
deque per fixed topic, so the dict is non-empty and one batch
`list(self.dumps[topic])` is emitted per topic, in topic order, to the
connecting subscriber only; the buffers are not modified. -/
def on_connect (st : IngestState) : List (String × List OutputMsg) :=
  if topics.isEmpty then []
  else topics.map (fun t => (t, st.dumps t))

/-!
Bounded-range export (`export_csv_for_topic`, LoggerApp.py lines 101-158)
and the marketSituation shaper (lines 169-194).
-/

/-- A topic's single partition as seen by the export consumer: the offset of
its earliest retained record and the records themselves (positions
`firstOffset, firstOffset+1, ...`); each record is its decode result, `none`
when `json.loads` raises `ValueError` (caught at line 142 and skipped). -/
structure Partition where
  firstOffset : Nat
  records : List (Option PyVal)
  deriving DecidableEq

/-- LoggerApp.py lines 126-127: `offset = max(start_offset, end_offset -
max_messages)` with `max_messages = 10 ** 5`. -/
def exportWindowStart (startOffset endOffset : Int) : Int :=
  max startOffset (endOffset - 100000)

/-- The records the export loop (lines 129-136) consumes: it seeks to the
window start and reads sequentially, incrementing `offset` per record and
breaking as soon as `offset >= end_offset`, where `end_offset` was fixed
before the loop; so exactly the records at positions
`[exportWindowStart, endOffset)` are read. -/
def exportConsumed (p : Partition) : List (Option PyVal) :=
  let s : Int := p.firstOffset
  let e : Int := s + p.records.length
  p.records.drop (exportWindowStart s e - s).toNat

/-- The merchant filter applied to one decoded payload (lines 140-141):
`'merchant_id' not in msg_json or msg_json['merchant_id'] == merchant_id`.
`some true` means the record is appended to `msgs`, `some false` means it is
skipped, and `none` means the test raised `TypeError` (payload is not a
container, or a list/string payload was indexed with a string key), which is
not caught by the inner `except ValueError` and aborts the whole export. -/
def filterStep (mid : Option String) : PyVal → Option Bool
  | .pobj fs =>
      some (match fs.lookup "merchant_id" with
            | none => true
            | some v => v == pyOfOptStr mid)
  | .parr xs => if xs.contains (.pstr "merchant_id") then none else some true
  | .pstr s => if containsSub s "merchant_id" then none else some true
  | _ => none

/-- The export loop body over the consumed records: collect the decoded
payloads that pass the merchant filter; `none` when the filter raised. -/
def processRecords (mid : Option String) : List (Option PyVal) → Option (List PyVal)
  | [] => some []
  | none :: rest => processRecords mid rest
  | some j :: rest =>
      match filterStep mid j with
      | none => none
      | some true => (processRecords mid rest).map (j :: ·)
      | some false => processRecords mid rest

/-- Python `for offer in situation['offers']` (line 189): a list yields its
elements; an empty string or empty dict yields nothing; any other value
either raises `TypeError` immediately or yields only strings, on which the
subsequent item assignment raises — in either case the export aborts, which
`none` models. -/
def offersIter : PyVal → Option (List PyVal)
  | .parr xs => some xs
  | .pstr s => if s = "" then some [] else none
  | .pobj fs => if fs = [] then some [] else none
  | _ => none

/-- Lines 190-193 for one offer: inject the parent snapshot's timestamp
(`situation['timestamp']`, `KeyError` aborts) into the offer (`TypeError`
aborts when the offer is not a dict), then, if the parent carries a
`merchant_id`, inject it as `triggering_merchant_id`. -/
def shapeOffer (situation offer : PyVal) : Option PyVal := do
  let ts ← situation.dictGet "timestamp"
  let o1 ← offer.dictSet "timestamp" ts
  if situation.dictHas "merchant_id" then
    let m ← situation.dictGet "merchant_id"
    o1.dictSet "triggering_merchant_id" m
  else
    pure o1

/-- The inner loop of the shaper (lines 189-193): shape each offer of one
situation in order, aborting on the first exception. -/
def shapeOffers (situation : PyVal) : List PyVal → Option (List PyVal)
  | [] => some []
  | o :: rest => do
      let r ← shapeOffer situation o
      let rs ← shapeOffers situation rest
      pure (r :: rs)

/-- LoggerApp.py lines 169-194: flatten marketSituation messages into one row
per nested offer, situation by situation; `none` models an uncaught
exception (which aborts the export). -/
def market_situation_shaper : List PyVal → Option (List PyVal)
  | [] => some []
  | situation :: rest => do
      let offersV ← situation.dictGet "offers"
      let offs ← offersIter offersV
      let shaped ← shapeOffers situation offs
      let rest' ← market_situation_shaper rest
      pure (shaped ++ rest')

/-- Result of an export request: the structured unknown-topic error (line
107), a failure caught at line 155 (`{'error': 'failed with: ...'}`), or the
list of rows materialised into the CSV (the `DataFrame` contents; file
naming and disk output are outside the model). -/
inductive ExportResult where
  | unknownTopic : ExportResult
  | exportFailed : ExportResult
  | ok (rows : List PyVal) : ExportResult
  deriving DecidableEq

/-- The endpoint `export_csv_for_topic` (LoggerApp.py lines 101-158) over one partition
snapshot.  The merchant id is derived from the Authorization header (lines
102-104); an unknown topic returns the structured error before any consumer
is created (lines 106-110); otherwise the bounded window is replayed,
filtered, and (for `marketSituation`) reshaped. -/
def export_csv_for_topic (topic : String) (authHeader : Option String)
    (p : Partition) : ExportResult :=
  let mid := deriveMerchantId (extractToken authHeader)
  if topic ∉ topics then .unknownTopic
  else
    match processRecords mid (exportConsumed p) with
    | none => .exportFailed
    | some msgs =>
        if topic = "marketSituation" then
          match market_situation_shaper msgs with
          | none => .exportFailed
          | some rows => .ok rows
        else .ok msgs

/-!
Lemmas about the history buffers and the ingestion loop.
-/

theorem dequeAppend_lastN (cap : Nat) (hc : 0 < cap) (l : List α) (x : α) :
    dequeAppend cap (l.drop (l.length - cap)) x
      = (l ++ [x]).drop (l.length + 1 - cap) := by
  by_cases h : l.length < cap
  · have h1 : l.length - cap = 0 := by omega
    have h2 : l.length + 1 - cap = 0 := by omega
    simp only [dequeAppend, h1, h2, List.drop_zero]
    rw [if_neg (by simp only [List.length_append, List.length_singleton]; omega)]
  · have hlen : (l.drop (l.length - cap)).length = cap := by
      rw [List.length_drop]; omega
    simp only [dequeAppend]
    rw [if_pos (by simp only [List.length_append, List.length_singleton, hlen]; omega)]
    have hd : (l.drop (l.length - cap) ++ [x]).length - cap = 1 := by
      simp only [List.length_append, List.length_singleton, hlen]; omega
    rw [hd]
    have h1 : (1 : Nat) ≤ (l.drop (l.length - cap)).length := by omega
    rw [List.drop_append_of_le_length h1, List.drop_drop]
    have h2 : l.length + 1 - cap ≤ l.length := by omega
    rw [List.drop_append_of_le_length h2]
    congr 2
    omega

theorem runIngest_append (msgs : List RawMsg) (m : RawMsg) :
    runIngest (msgs ++ [m]) = ingestStep (runIngest msgs) m := by
  simp [runIngest, List.foldl_append]

theorem acceptedOutputs_append (t : String) (msgs : List RawMsg) (m : RawMsg) :
    acceptedOutputs t (msgs ++ [m])
      = acceptedOutputs t msgs
        ++ (match acceptedOutput m with
            | some o => if o.topic = t then [o] else []
            | none => []) := by
  simp only [acceptedOutputs, List.filterMap_append, List.filter_append]
  cases h : acceptedOutput m with
  | none => simp [h]
  | some o =>
      simp only [h, List.filterMap_cons, List.filterMap_nil]
      by_cases ho : o.topic = t <;> simp [ho]

theorem runIngest_dumps (msgs : List RawMsg) (t : String) :
    (runIngest msgs).dumps t
      = (acceptedOutputs t msgs).drop ((acceptedOutputs t msgs).length - 100) := by
  induction msgs using List.reverseRecOn with
  | nil => simp [runIngest, initIngestState, acceptedOutputs]
  | append_singleton msgs m ih =>
      rw [runIngest_append, acceptedOutputs_append]
      cases hv : m.value with
      | none =>
          have ha : acceptedOutput m = none := by simp [acceptedOutput, hv]
          simp only [ingestStep, hv, ha]
          simpa using ih
      | some j =>
          by_cases hk : keeps j
          · by_cases ht : m.topic ∈ topics
            · have ha : acceptedOutput m = some ⟨m.topic, m.timestamp, j⟩ := by
                simp [acceptedOutput, hv, hk, ht]
              by_cases heq : m.topic = t
              · subst heq
                simp only [ingestStep, hv, hk, if_true, if_pos ht, ha, if_pos rfl, ih]
                rw [dequeAppend_lastN 100 (by omega)]
                simp
              · simp only [ingestStep, hv, hk, if_true, if_pos ht, ha, if_neg heq]
                rw [if_neg (fun hh => heq hh.symm)]
                simpa using ih
            · have ha : acceptedOutput m = none := by
                simp [acceptedOutput, hv, hk, ht]
              simp only [ingestStep, hv, hk, if_true, if_neg ht, ha]
              simpa using ih
          · have ha : acceptedOutput m = none := by
              simp [acceptedOutput, hv, hk]
            simp only [ingestStep, hv, hk, ha, if_false]
            simpa using ih

theorem runIngest_emitted (msgs : List RawMsg) :
    (runIngest msgs).emitted = msgs.filterMap acceptedOutput := by
  induction msgs using List.reverseRecOn with
  | nil => simp [runIngest, initIngestState]
  | append_singleton msgs m ih =>
      rw [runIngest_append]
      cases hv : m.value with
      | none =>
          have ha : acceptedOutput m = none := by simp [acceptedOutput, hv]
          simp [ingestStep, hv, ha, ih]
      | some j =>
          by_cases hk : keeps j
          · by_cases ht : m.topic ∈ topics
            · have ha : acceptedOutput m = some ⟨m.topic, m.timestamp, j⟩ := by
                simp [acceptedOutput, hv, hk, ht]
              simp [ingestStep, hv, hk, ht, ha, ih]
            · have ha : acceptedOutput m = none := by
                simp [acceptedOutput, hv, hk, ht]
              simp [ingestStep, hv, hk, ht, ha, ih]
          · have ha : acceptedOutput m = none := by simp [acceptedOutput, hv, hk]
            simp [ingestStep, hv, hk, ha, ih]

theorem keeps_http_code {j : PyVal} (hk : keeps j = true) :
    ∀ v, j.dictGet "http_code" = some v → v = .pint 200 := by
  intro v hv
  cases j with
  | pobj fs =>
      simp only [PyVal.dictGet] at hv
      simp only [keeps, hv] at hk
      exact beq_iff_eq.mp hk
  | pnull => simp [PyVal.dictGet] at hv
  | pbool b => simp [PyVal.dictGet] at hv
  | pint n => simp [PyVal.dictGet] at hv
  | pstr s => simp [PyVal.dictGet] at hv
  | parr xs => simp [PyVal.dictGet] at hv

theorem mem_ingest_keeps {msgs : List RawMsg} {t : String} {out : OutputMsg}
    (h : out ∈ (runIngest msgs).dumps t ∨ out ∈ (runIngest msgs).emitted) :
    keeps out.value = true := by
  have hacc : ∃ m ∈ msgs, acceptedOutput m = some out := by
    rcases h with h | h
    · rw [runIngest_dumps] at h
      have h2 := List.mem_of_mem_drop h
      have h3 := List.mem_of_mem_filter h2
      exact List.mem_filterMap.mp h3
    · rw [runIngest_emitted] at h
      exact List.mem_filterMap.mp h
  rcases hacc with ⟨m, _, hm⟩
  unfold acceptedOutput at hm
  cases hv : m.value with
  | none => simp [hv] at hm
  | some j =>
      simp only [hv] at hm
      by_cases hkj : keeps j ∧ m.topic ∈ topics
      · rw [if_pos hkj] at hm
        cases hm
        exact hkj.1
      · rw [if_neg hkj] at hm
        cases hm

/-!
Claim theorems C3 and C4.
-/

/-- C3: for every decoded message processed by the ingestion loop, if its
payload contains an `http_code` field whose value is not 200, the message is
neither appended to any HistoryBuffer nor broadcast to subscribers; every
output found in a buffer (at any point, i.e. after any finite record
sequence) or in the broadcast log has either no `http_code` field or the
value 200. -/
theorem c3_http_code_filter (msgs : List RawMsg) (t : String) (out : OutputMsg)
    (h : out ∈ (runIngest msgs).dumps t ∨ out ∈ (runIngest msgs).emitted) :
    ∀ v, out.value.dictGet "http_code" = some v → v = .pint 200 :=
  keeps_http_code (mem_ingest_keeps h)

/-- Witness for C3: a concrete accepted message is in the buffer, and the
theorem applies to it. -/
theorem c3_http_code_filter_witness :
    ((⟨"profit", 5, .pobj [("http_code", .pint 200)]⟩ : OutputMsg)
        ∈ (runIngest [⟨"profit", 5, some (.pobj [("http_code", .pint 200)])⟩]).dumps "profit"
      ∨ (⟨"profit", 5, .pobj [("http_code", .pint 200)]⟩ : OutputMsg)
        ∈ (runIngest [⟨"profit", 5, some (.pobj [("http_code", .pint 200)])⟩]).emitted)
    ∧ (∀ v, (PyVal.pobj [("http_code", .pint 200)]).dictGet "http_code" = some v
          → v = .pint 200) :=
  ⟨Or.inl (by decide),
   c3_http_code_filter [⟨"profit", 5, some (.pobj [("http_code", .pint 200)])⟩]
     "profit" ⟨"profit", 5, .pobj [("http_code", .pint 200)]⟩ (Or.inl (by decide))⟩

/-- C4: after any finite record sequence (hence at every point in
execution), every topic's HistoryBuffer holds exactly the most recently
accepted messages for that topic — the suffix of the accepted-output
sequence past its first `length - 100` elements — in arrival order, and so
never holds more than 100 messages. -/
theorem c4_buffer_bounded (msgs : List RawMsg) (t : String) :
    (runIngest msgs).dumps t
        = (acceptedOutputs t msgs).drop ((acceptedOutputs t msgs).length - 100)
    ∧ ((runIngest msgs).dumps t).length ≤ 100 := by
  refine ⟨runIngest_dumps msgs t, ?_⟩
  rw [runIngest_dumps, List.length_drop]
  omega

/-!
Claim theorems C5 and C6.
-/

/-- C5: the startup two-phase seek records the end position and re-seeks to
`max(0, endOffset - 100)`, so the consumer replays exactly the last
`min 100 length` records of each topic's log — the suffix past
`length - 100` — and the hydrated buffer holds exactly the accepted outputs
of that suffix (at most 100, no eviction); for the spec's example of 250
prior messages, exactly the last 100 are replayed in original order. -/
theorem c5_startup_hydration (log : List RawMsg) (t : String) :
    startupStartPos log.length = max 0 ((log.length : Int) - 100)
    ∧ startupConsumed log = log.drop (log.length - 100)
    ∧ (startupConsumed log).length = min 100 log.length
    ∧ (runIngest (startupConsumed log)).dumps t
        = acceptedOutputs t (startupConsumed log)
    ∧ (∀ m : RawMsg, startupConsumed (List.replicate 250 m) = List.replicate 100 m) := by
  have htn : (startupStartPos log.length).toNat = log.length - 100 := by
    simp only [startupStartPos]
    omega
  have hcons : startupConsumed log = log.drop (log.length - 100) := by
    simp only [startupConsumed, htn]
  have hlen : (startupConsumed log).length = min 100 log.length := by
    rw [hcons, List.length_drop]
    omega
  refine ⟨rfl, hcons, hlen, ?_, ?_⟩
  · rw [runIngest_dumps]
    have hle : (acceptedOutputs t (startupConsumed log)).length ≤ 100 := by
      have h1 : (acceptedOutputs t (startupConsumed log)).length
          ≤ ((startupConsumed log).filterMap acceptedOutput).length :=
        List.length_filter_le _ _
      have h2 : ((startupConsumed log).filterMap acceptedOutput).length
          ≤ (startupConsumed log).length := List.length_filterMap_le _ _
      omega
    have : (acceptedOutputs t (startupConsumed log)).length - 100 = 0 := by omega
    rw [this, List.drop_zero]
  · intro m
    have htn' : (startupStartPos (List.replicate 250 m).length).toNat = 150 := by
      simp only [startupStartPos, List.length_replicate]
      omega
    simp only [startupConsumed, htn', List.drop_replicate]

/-- C6 (amended): on every subscriber connection, one snapshot batch per
topic of the fixed topic list is sent — including an empty batch when that
topic's buffer is empty (`self.dumps` always holds all thirteen keys, so the
`if self.dumps:` guard never suppresses anything); each batch is exactly the
current buffer contents, and the buffers are not modified. -/
theorem c6_connect_replay (st : IngestState) (t : String) :
    on_connect st = topics.map (fun tp => (tp, st.dumps tp))
    ∧ (t ∈ topics → (t, st.dumps t) ∈ on_connect st) := by
  constructor
  · simp [on_connect, topics]
  · intro ht
    simp only [on_connect, topics, List.isEmpty_cons, Bool.false_eq_true,
      if_false]
    exact List.mem_map.mpr ⟨t, ht, rfl⟩

/-- Witness for C6: a concrete topic of the list receives its batch. -/
theorem c6_connect_replay_witness :
    "profit" ∈ topics
    ∧ ("profit", initIngestState.dumps "profit") ∈ on_connect initIngestState :=
  ⟨by decide, (c6_connect_replay initIngestState "profit").2 (by decide)⟩

/-- Counterexample for C6 as stated: in the initial state every buffer is
empty, yet `on_connect` still emits a (empty) snapshot batch for topic
`addOffer`; the claim asserts no batch is sent for a topic with an empty
buffer. -/
theorem c6_connect_replay_cex :
    initIngestState.dumps "addOffer" = []
    ∧ ("addOffer", ([] : List OutputMsg)) ∈ on_connect initIngestState := by
  constructor
  · rfl
  · decide

/-- The export loop consumes exactly the suffix of the partition past
position `length - 100000`. -/
theorem exportConsumed_eq (p : Partition) :
    exportConsumed p = p.records.drop (p.records.length - 100000) := by
  have htn : (exportWindowStart p.firstOffset (p.firstOffset + p.records.length)
      - p.firstOffset).toNat = p.records.length - 100000 := by
    simp only [exportWindowStart]
    omega
  simp only [exportConsumed, htn]

/-- C2: with `startOffset` the partition's earliest offset and `endOffset`
its end offset fixed at request time, the replay window start is
`max(startOffset, endOffset - 100000)`, so the export replays exactly the
records past position `length - 100000` — at most 100000 of them; with
`startOffset = 0, endOffset = 999` the window is `[0, 999)` (all 999
records), and with `startOffset = 0, endOffset = 200000` the window start is
`100000` (100000 records replayed). -/
theorem c2_export_window (p : Partition) (r : Option PyVal) :
    exportWindowStart p.firstOffset (p.firstOffset + p.records.length)
        = max (p.firstOffset : Int) ((p.firstOffset : Int) + p.records.length - 100000)
    ∧ exportConsumed p = p.records.drop (p.records.length - 100000)
    ∧ (exportConsumed p).length = min p.records.length 100000
    ∧ exportWindowStart 0 999 = 0
    ∧ exportConsumed ⟨0, List.replicate 999 r⟩ = List.replicate 999 r
    ∧ exportWindowStart 0 200000 = 100000
    ∧ (exportConsumed ⟨0, List.replicate 200000 r⟩).length = 100000 := by
  refine ⟨by simp [exportWindowStart], exportConsumed_eq p, ?_, by decide, ?_, by decide, ?_⟩
  · rw [exportConsumed_eq, List.length_drop]; omega
  · rw [exportConsumed_eq]; norm_num
  · rw [exportConsumed_eq, List.length_drop, List.length_replicate]

/-- C7: an export request for a topic outside the fixed list returns the
structured unknown-topic error, and the result does not depend on the
partition contents (no broker read is needed to produce it); for a topic in
the list the unknown-topic error is never returned. -/
theorem c7_unknown_topic (topic : String) (auth : Option String)
    (p p' : Partition) :
    (topic ∉ topics →
        export_csv_for_topic topic auth p = .unknownTopic
        ∧ export_csv_for_topic topic auth p = export_csv_for_topic topic auth p')
    ∧ (topic ∈ topics → export_csv_for_topic topic auth p ≠ .unknownTopic) := by
  constructor
  · intro ht
    simp [export_csv_for_topic, ht]
  · intro ht
    simp only [export_csv_for_topic, ht, not_true_eq_false, if_false]
    cases processRecords (deriveMerchantId (extractToken auth)) (exportConsumed p) with
    | none => simp
    | some msgs =>
        by_cases hms : topic = "marketSituation"
        · simp only [hms, if_true]
          cases market_situation_shaper msgs <;> simp
        · simp [hms]

/-- Witness for C7: a concrete unknown topic yields the error independently
of the log, and a concrete known topic does not. -/
theorem c7_unknown_topic_witness :
    ("bogus" ∉ topics ∧ export_csv_for_topic "bogus" none ⟨0, []⟩ = .unknownTopic)
    ∧ ("addOffer" ∈ topics
       ∧ export_csv_for_topic "addOffer" none ⟨0, []⟩ ≠ .unknownTopic) :=
  ⟨⟨by decide, ((c7_unknown_topic "bogus" none ⟨0, []⟩ ⟨0, []⟩).1 (by decide)).1⟩,
   ⟨by decide, (c7_unknown_topic "addOffer" none ⟨0, []⟩ ⟨0, []⟩).2 (by decide)⟩⟩

/-- C1 (amended): a decoded dict record passes the export filter exactly
when it has no `merchant_id` field or that field's value equals the Python
value of the derived merchant id — the hash string when a credential is
present, `None`/null when absent (so with no credential, records without the
field *and* records whose `merchant_id` is JSON null pass); an absent
credential derives an absent PrincipalId. -/
theorem c1_export_filter_amended (mid : Option String)
    (fs : List (String × PyVal)) (rest : List (Option PyVal)) :
    (filterStep mid (.pobj fs) = some true
      ↔ fs.lookup "merchant_id" = none
        ∨ fs.lookup "merchant_id" = some (pyOfOptStr mid))
    ∧ processRecords mid (some (.pobj fs) :: rest)
        = (if fs.lookup "merchant_id" = none
              ∨ fs.lookup "merchant_id" = some (pyOfOptStr mid)
           then (processRecords mid rest).map (.pobj fs :: ·)
           else processRecords mid rest)
    ∧ deriveMerchantId (extractToken none) = none := by
  refine ⟨?_, ?_, rfl⟩
  · cases hl : fs.lookup "merchant_id" with
    | none => simp [filterStep, hl]
    | some v =>
        by_cases hv : v = pyOfOptStr mid
        · simp [filterStep, hl, hv]
        · simp [filterStep, hl, hv]
  · cases hl : fs.lookup "merchant_id" with
    | none => simp [processRecords, filterStep, hl]
    | some v =>
        by_cases hv : v = pyOfOptStr mid
        · simp [processRecords, filterStep, hl, hv]
        · have hb : (v == pyOfOptStr mid) = false := beq_eq_false_iff_ne.mpr hv
          simp [processRecords, filterStep, hl, hb, hv]

/-- Counterexample for C1 as stated: with no credential the derived
PrincipalId is absent, yet a record that *does* carry a `merchant_id` field
(with JSON null value, decoded to Python `None`, which compares equal to the
absent id) passes the filter and is included in the export — the claim
asserts that only records without the field pass. -/
theorem c1_export_filter_cex :
    deriveMerchantId (extractToken none) = none
    ∧ (PyVal.pobj [("merchant_id", .pnull)]).dictHas "merchant_id" = true
    ∧ export_csv_for_topic "profit" none ⟨0, [some (.pobj [("merchant_id", .pnull)])]⟩
        = .ok [.pobj [("merchant_id", .pnull)]] :=
  ⟨rfl, rfl, by decide⟩

/-!
Lemmas about dict assignment and offer shaping.
-/

theorem lookup_setKey_self (fs : List (String × PyVal)) (k : String) (v : PyVal) :
    (setKey fs k v).lookup k = some v := by
  induction fs with
  | nil => simp [setKey, List.lookup]
  | cons p rest ih =>
      obtain ⟨k', v'⟩ := p
      by_cases h : k' = k
      · simp [setKey, h, List.lookup]
      · have hb : (k == k') = false := beq_eq_false_iff_ne.mpr (Ne.symm h)
        simp only [setKey, if_neg h, List.lookup, hb]
        exact ih

theorem lookup_setKey_ne (fs : List (String × PyVal)) {k k' : String} (v : PyVal)
    (h : k ≠ k') : (setKey fs k' v).lookup k = fs.lookup k := by
  have hb : (k == k') = false := beq_eq_false_iff_ne.mpr h
  induction fs with
  | nil => simp [setKey, List.lookup, hb]
  | cons p rest ih =>
      obtain ⟨k0, v0⟩ := p
      by_cases h0 : k0 = k'
      · subst h0
        simp [setKey, List.lookup, hb]
      · simp only [setKey, if_neg h0, List.lookup]
        cases hk : k == k0 <;> simp [ih]

theorem shapeOffers_length (s : PyVal) :
    ∀ {offs rows : List PyVal}, shapeOffers s offs = some rows →
      rows.length = offs.length := by
  intro offs
  induction offs with
  | nil =>
      intro rows h
      simp only [shapeOffers, Option.some_inj] at h
      subst h
      rfl
  | cons o rest ih =>
      intro rows h
      simp only [shapeOffers, Option.bind_eq_bind] at h
      cases hr : shapeOffer s o with
      | none => rw [hr] at h; simp at h
      | some r =>
          rw [hr] at h
          cases hrs : shapeOffers s rest with
          | none => rw [hrs] at h; simp at h
          | some rs =>
              rw [hrs] at h
              simp only [Option.some_bind, Option.pure_def, Option.some_inj] at h
              subst h
              simp [ih hrs]

theorem shapeOffers_mem (s : PyVal) :
    ∀ {offs rows : List PyVal}, shapeOffers s offs = some rows →
      ∀ r ∈ rows, ∃ o ∈ offs, shapeOffer s o = some r := by
  intro offs
  induction offs with
  | nil =>
      intro rows h
      simp only [shapeOffers, Option.some_inj] at h
      subst h
      simp
  | cons o rest ih =>
      intro rows h
      simp only [shapeOffers, Option.bind_eq_bind] at h
      cases hr : shapeOffer s o with
      | none => rw [hr] at h; simp at h
      | some r =>
          rw [hr] at h
          cases hrs : shapeOffers s rest with
          | none => rw [hrs] at h; simp at h
          | some rs =>
              rw [hrs] at h
              simp only [Option.some_bind, Option.pure_def, Option.some_inj] at h
              subst h
              intro c hc
              rcases List.mem_cons.mp hc with hc | hc
              · exact ⟨o, List.mem_cons_self o rest, hc ▸ hr⟩
              · rcases ih hrs c hc with ⟨o', ho', hfo'⟩
                exact ⟨o', List.mem_cons_of_mem o ho', hfo'⟩

/-- A successfully shaped offer carries the parent snapshot's timestamp and,
when the parent has a `merchant_id`, that value as
`triggering_merchant_id`. -/
theorem shapeOffer_fields {s o r ts : PyVal}
    (hts : s.dictGet "timestamp" = some ts)
    (h : shapeOffer s o = some r) :
    r.dictGet "timestamp" = some ts
    ∧ ∀ m, s.dictGet "merchant_id" = some m →
        r.dictGet "triggering_merchant_id" = some m := by
  unfold shapeOffer at h
  rw [hts] at h
  simp only [Option.bind_eq_bind, Option.some_bind] at h
  cases ho1 : o.dictSet "timestamp" ts with
  | none => rw [ho1] at h; simp at h
  | some o1 =>
      rw [ho1] at h
      simp only [Option.some_bind] at h
      obtain ⟨fo, rfl⟩ : ∃ fo, o = .pobj fo := by
        cases o with
        | pobj fo => exact ⟨fo, rfl⟩
        | pnull => simp [PyVal.dictSet] at ho1
        | pbool b => simp [PyVal.dictSet] at ho1
        | pint n => simp [PyVal.dictSet] at ho1
        | pstr s0 => simp [PyVal.dictSet] at ho1
        | parr xs => simp [PyVal.dictSet] at ho1
      have ho1' : o1 = .pobj (setKey fo "timestamp" ts) := by
        simp only [PyVal.dictSet, Option.some_inj] at ho1
        exact ho1.symm
      subst ho1'
      by_cases hm : s.dictHas "merchant_id"
      · obtain ⟨m0, hm0⟩ : ∃ m0, s.dictGet "merchant_id" = some m0 := by
          unfold PyVal.dictHas at hm
          exact Option.isSome_iff_exists.mp hm
        rw [if_pos hm, hm0] at h
        simp only [Option.some_bind, PyVal.dictSet, Option.some_inj] at h
        subst h
        constructor
        · show (setKey (setKey fo "timestamp" ts) "triggering_merchant_id" m0).lookup
              "timestamp" = some ts
          rw [lookup_setKey_ne _ _ (by decide)]
          exact lookup_setKey_self fo "timestamp" ts
        · intro m hm'
          rw [hm0] at hm'
          cases hm'
          exact lookup_setKey_self _ _ _
      · rw [if_neg hm] at h
        simp only [Option.pure_def, Option.some_inj] at h
        subst h
        constructor
        · exact lookup_setKey_self fo "timestamp" ts
        · intro m hm'
          exact absurd (Option.isSome_iff_exists.mpr ⟨m, hm'⟩) (by
            unfold PyVal.dictHas at hm
            simpa using hm)

/-- C8: a successfully shaped marketSituation message yields exactly one row
per nested offer, each row carrying the parent's timestamp and — when the
parent payload has a `merchant_id` — that value as
`triggering_merchant_id`. -/
theorem c8_shaper (s : PyVal) (offs : List PyVal) (ts : PyVal)
    (rows : List PyVal)
    (hoffs : s.dictGet "offers" = some (.parr offs))
    (hts : s.dictGet "timestamp" = some ts)
    (hrows : market_situation_shaper [s] = some rows) :
    rows.length = offs.length
    ∧ ∀ r ∈ rows, r.dictGet "timestamp" = some ts
        ∧ ∀ m, s.dictGet "merchant_id" = some m →
            r.dictGet "triggering_merchant_id" = some m := by
  unfold market_situation_shaper at hrows
  rw [hoffs] at hrows
  simp only [Option.bind_eq_bind, Option.some_bind, offersIter] at hrows
  cases hsh : shapeOffers s offs with
  | none => rw [hsh] at hrows; simp at hrows
  | some shaped =>
      rw [hsh] at hrows
      simp only [market_situation_shaper, Option.some_bind, Option.pure_def,
        Option.some_inj, List.append_nil] at hrows
      subst hrows
      refine ⟨shapeOffers_length s hsh, ?_⟩
      intro r hr
      rcases shapeOffers_mem s hsh r hr with ⟨o, _, ho⟩
      exact shapeOffer_fields hts ho

/-- The situation payload of the spec's reshaping example: 3 nested offers,
`merchant_id = "m1"`, `timestamp = 42`. -/
def c8exSituation : PyVal :=
  .pobj [("timestamp", .pint 42), ("merchant_id", .pstr "m1"),
         ("offers", .parr [.pobj [("offer_id", .pint 1)],
                           .pobj [("offer_id", .pint 2)],
                           .pobj [("offer_id", .pint 3)]])]

/-- The rows the shaper produces for `c8exSituation`. -/
def c8exRows : List PyVal :=
  [.pobj [("offer_id", .pint 1), ("timestamp", .pint 42),
          ("triggering_merchant_id", .pstr "m1")],
   .pobj [("offer_id", .pint 2), ("timestamp", .pint 42),
          ("triggering_merchant_id", .pstr "m1")],
   .pobj [("offer_id", .pint 3), ("timestamp", .pint 42),
          ("triggering_merchant_id", .pstr "m1")]]

/-- Witness for C8: the spec's example, evaluated concretely — 3 offers,
`merchant_id = "m1"`, `timestamp = 42` yield exactly 3 rows, each with
`timestamp = 42` and `triggering_merchant_id = "m1"`. -/
theorem c8_shaper_witness :
    market_situation_shaper [c8exSituation] = some c8exRows
    ∧ c8exRows.length = 3
    ∧ ∀ r ∈ c8exRows, r.dictGet "timestamp" = some (.pint 42)
        ∧ r.dictGet "triggering_merchant_id" = some (.pstr "m1") := by
  have h := c8_shaper c8exSituation
    [.pobj [("offer_id", .pint 1)], .pobj [("offer_id", .pint 2)],
     .pobj [("offer_id", .pint 3)]]
    (.pint 42) c8exRows (by decide) (by decide) (by decide)
  refine ⟨by decide, by simpa using h.1, ?_⟩
  intro r hr
  exact ⟨(h.2 r hr).1, (h.2 r hr).2 (.pstr "m1") (by decide)⟩

/-!
Lemmas for C9: the merchant id is always a 44-character string over the
base64 alphabet (plus padding).
-/

theorem toBytesBE_length (n x : Nat) : (toBytesBE n x).length = n := by
  simp [toBytesBE]

theorem flatten_map_toBytes4_length (l : List Nat) :
    ((l.map (toBytesBE 4)).flatten).length = 4 * l.length := by
  induction l with
  | nil => simp
  | cons a l ih =>
      simp only [List.map_cons, List.flatten_cons, List.length_append,
        toBytesBE_length, ih, List.length_cons]
      ring

theorem sha256round_length (kw : Nat) (st : List Nat) :
    (sha256round kw st).length = 8 := rfl

theorem sha256rounds_length (f : Nat → Nat) (l : List Nat) (st : List Nat)
    (h : st.length = 8) :
    (l.foldl (fun s i => sha256round (f i) s) st).length = 8 := by
  induction l generalizing st with
  | nil => simpa
  | cons a l ih => exact ih _ (sha256round_length _ _)

theorem sha256compress_length (st chunk : List Nat) (h : st.length = 8) :
    (sha256compress st chunk).length = 8 := by
  unfold sha256compress
  rw [List.length_zipWith]
  rw [sha256rounds_length _ _ _ h, h]
  rfl

theorem sha256final_length (chunks : List (List Nat)) (st : List Nat)
    (h : st.length = 8) : (chunks.foldl sha256compress st).length = 8 := by
  induction chunks generalizing st with
  | nil => simpa
  | cons c chunks ih => exact ih _ (sha256compress_length _ _ h)

theorem sha256_length (msg : List Nat) : (sha256 msg).length = 32 := by
  unfold sha256
  rw [flatten_map_toBytes4_length, sha256final_length _ _ (by rfl)]

theorem b64Char_mem (n : Nat) : b64Char n ∈ b64Alphabet := by
  unfold b64Char
  have hlen : b64Alphabet.length = 64 := by decide
  have hlt : n % 64 < b64Alphabet.length := by rw [hlen]; omega
  rw [List.getD_eq_getElem _ _ hlt]
  exact List.getElem_mem hlt

theorem base64_props :
    ∀ (n : Nat) (bs : List Nat), bs.length ≤ n →
      (base64encode bs).length = (bs.length + 2) / 3 * 4
      ∧ ∀ c ∈ base64encode bs, c ∈ b64Alphabet ∨ c = '=' := by
  intro n
  induction n with
  | zero =>
      intro bs h
      have hnil : bs = [] := List.eq_nil_of_length_eq_zero (by omega)
      subst hnil
      simp [base64encode]
  | succ n ih =>
      intro bs h
      match bs with
      | [] => simp [base64encode]
      | [b1] =>
          refine ⟨by simp [base64encode], ?_⟩
          intro c hc
          simp only [base64encode, List.mem_cons, List.not_mem_nil, or_false] at hc
          rcases hc with rfl | rfl | rfl | rfl
          · exact Or.inl (b64Char_mem _)
          · exact Or.inl (b64Char_mem _)
          · exact Or.inr rfl
          · exact Or.inr rfl
      | [b1, b2] =>
          refine ⟨by simp [base64encode], ?_⟩
          intro c hc
          simp only [base64encode, List.mem_cons, List.not_mem_nil, or_false] at hc
          rcases hc with rfl | rfl | rfl | rfl
          · exact Or.inl (b64Char_mem _)
          · exact Or.inl (b64Char_mem _)
          · exact Or.inl (b64Char_mem _)
          · exact Or.inr rfl
      | b1 :: b2 :: b3 :: rest =>
          have hrest : rest.length ≤ n := by
            simp only [List.length_cons] at h
            omega
          have hr := ih rest hrest
          constructor
          · simp only [base64encode, List.length_cons, hr.1]
            omega
          · intro c hc
            simp only [base64encode, List.mem_cons] at hc
            rcases hc with rfl | rfl | rfl | rfl | hc
            · exact Or.inl (b64Char_mem _)
            · exact Or.inl (b64Char_mem _)
            · exact Or.inl (b64Char_mem _)
            · exact Or.inl (b64Char_mem _)
            · exact hr.2 c hc

/-- C9: merchant id derivation is a pure, deterministic function of the
credential string — equal credentials give equal ids — whose output is
always a 44-character text over the fixed base64 alphabet (with `=`
padding), and an absent credential yields an absent id. -/
theorem c9_hasher_deterministic :
    (∀ s t : String, s = t → calculate_id s = calculate_id t)
    ∧ (∀ s : String, (calculate_id s).length = 44
        ∧ ∀ c ∈ (calculate_id s).data, c ∈ b64Alphabet ∨ c = '=')
    ∧ deriveMerchantId none = none := by
  refine ⟨fun s t h => h ▸ rfl, fun s => ?_, rfl⟩
  have hlen : (sha256 (utf8Encode s)).length = 32 := sha256_length _
  have hb := base64_props (sha256 (utf8Encode s)).length (sha256 (utf8Encode s))
    le_rfl
  constructor
  · show (String.mk (base64encode (sha256 (utf8Encode s)))).length = 44
    have : (String.mk (base64encode (sha256 (utf8Encode s)))).length
        = (base64encode (sha256 (utf8Encode s))).length := rfl
    rw [this, hb.1, hlen]
  · intro c hc
    exact hb.2 c hc

/-- Witness for C9: the theorem applied at a concrete credential. -/
theorem c9_hasher_deterministic_witness :
    calculate_id "token" = calculate_id "token"
    ∧ (calculate_id "token").length = 44
    ∧ deriveMerchantId none = none :=
  ⟨c9_hasher_deterministic.1 "token" "token" rfl,
   (c9_hasher_deterministic.2.1 "token").1,
   c9_hasher_deterministic.2.2⟩

/-!
Lemmas for C10: `split(' ')[-1]` extracts the maximal space-free suffix.
-/

theorem splitChar_ne_nil (sep : Char) : ∀ cs : List Char, splitChar sep cs ≠ [] := by
  intro cs
  cases cs with
  | nil => simp [splitChar]
  | cons c cs =>
      simp only [splitChar]
      cases h : splitChar sep cs with
      | nil => simp
      | cons p ps => by_cases hc : c = sep <;> simp [hc]

theorem splitChar_of_not_mem {sep : Char} :
    ∀ {cs : List Char}, sep ∉ cs → splitChar sep cs = [cs] := by
  intro cs
  induction cs with
  | nil => intro _; rfl
  | cons c cs ih =>
      intro h
      have hc : c ≠ sep := fun he => h (he ▸ List.mem_cons_self c cs)
      have hcs : sep ∉ cs := fun he => h (List.mem_cons_of_mem c he)
      simp only [splitChar, ih hcs]
      simp [hc]

theorem splitChar_length_ge_two {sep : Char} :
    ∀ {cs : List Char}, sep ∈ cs → 2 ≤ (splitChar sep cs).length := by
  intro cs
  induction cs with
  | nil => intro h; cases h
  | cons c cs ih =>
      intro h
      simp only [splitChar]
      cases hs : splitChar sep cs with
      | nil => exact absurd hs (splitChar_ne_nil sep cs)
      | cons p ps =>
          by_cases hc : c = sep
          · simp [hc]
          · have hmem : sep ∈ cs := by
              rcases List.mem_cons.mp h with he | he
              · exact absurd he.symm hc
              · exact he
            have := ih hmem
            rw [hs] at this
            simp only [List.length_cons] at this ⊢
            simp [hc]
            omega

theorem splitChar_lastPart {sep : Char} :
    ∀ (u t : List Char), sep ∉ t →
      (splitChar sep (u ++ sep :: t)).getLastD [] = t := by
  intro u
  induction u with
  | nil =>
      intro t ht
      simp only [List.nil_append, splitChar]
      cases hs : splitChar sep t with
      | nil => exact absurd hs (splitChar_ne_nil sep t)
      | cons p ps =>
          simp only [if_pos rfl]
          have : splitChar sep t = [t] := splitChar_of_not_mem ht
          rw [this] at hs
          cases hs
          rfl
  | cons a u ih =>
      intro t ht
      simp only [List.cons_append, splitChar]
      cases hs : splitChar sep (u ++ sep :: t) with
      | nil => exact absurd hs (splitChar_ne_nil sep _)
      | cons p ps =>
          by_cases ha : a = sep
          · simp only [ha, if_pos rfl]
            have := ih t ht
            rw [hs] at this
            exact this
          · simp only [if_neg ha]
            have hlen : 2 ≤ (splitChar sep (u ++ sep :: t)).length :=
              splitChar_length_ge_two (by simp)
            rw [hs] at hlen
            simp only [List.length_cons] at hlen
            have hps : ps ≠ [] := by
              intro he
              rw [he] at hlen
              simp at hlen
            have h1 : ((a :: p) :: ps).getLastD [] = ps.getLastD (a :: p) :=
              List.getLastD_cons _ _ _
            have h2 : (p :: ps).getLastD [] = ps.getLastD p :=
              List.getLastD_cons _ _ _
            have h3 : ps.getLastD (a :: p) = ps.getLastD p := by
              cases ps with
              | nil => exact absurd rfl hps
              | cons q qs => rw [List.getLastD_cons, List.getLastD_cons]
            have := ih t ht
            rw [hs] at this
            rw [h1, h3, ← h2]
            exact this

/-- C10: the extracted bearer token is the substring after the last space of
the header value (whenever the header decomposes as `u ++ " " ++ t` with `t`
space-free, the token is `t`); a header ending in a space extracts the empty
token, on which the hasher is never invoked (`calculate_id` is short-cut by
Python falsiness) and the derived PrincipalId is absent, exactly as with no
Authorization header. -/
theorem c10_token_extraction (h : String) (u t : List Char)
    (hd : h.data = u ++ ' ' :: t) (ht : ' ' ∉ t) :
    extractToken (some h) = some (String.mk t)
    ∧ deriveMerchantId (some "") = none
    ∧ deriveMerchantId none = none
    ∧ (t = [] → deriveMerchantId (extractToken (some h)) = none) := by
  have hne : h ≠ "" := by
    intro he
    rw [he] at hd
    simp at hd
  have htok : extractToken (some h) = some (String.mk t) := by
    simp only [extractToken, if_neg hne, hd, Option.some_inj]
    rw [splitChar_lastPart u t ht]
  refine ⟨htok, rfl, rfl, ?_⟩
  intro hte
  subst hte
  rw [htok]
  rfl

/-- Witness for C10: the concrete header `"x "` (ending in a space) yields
the empty token and no merchant id. -/
theorem c10_token_extraction_witness :
    extractToken (some "x ") = some ""
    ∧ deriveMerchantId (extractToken (some "x ")) = none :=
  have h := c10_token_extraction "x " ['x'] [] (by decide) (by decide)
  ⟨h.1, h.2.2.2 rfl⟩
